import Mathlib

/-!
# Verification of the `readability` tool (src/main.rs)

Shallow embedding of the core pipeline of the `readability` CLI:
`load_frequency_dict` (dictionary loading and weighting), `tokenize_english_words`
(regex tokenization), `compute_readability` (mean weight scoring), and the driver
wiring (`pipeline`).

IEEE `f64` values are modelled exactly as rationals plus a NaN element (`F`):
every arithmetic operation the program performs on floats is either exact in
`f64` for the inputs the claims mention, or only its sign/bound structure
matters, so `ℚ` with explicit NaN is a faithful model.  Division by zero with a
zero numerator yields NaN exactly as in IEEE; a nonzero numerator over zero
(IEEE infinity) never occurs in the program, since the only zero denominator
that can arise is `max_count = 0`, which forces every numerator to be zero, and
the score denominator is a positive count.
-/

namespace Readability

/-- Model of an `f64` value: an exact rational or NaN. -/
inductive F where
  | nan : F
  | val (q : ℚ) : F
deriving DecidableEq, Repr

/-- Addition of `f64` values (exact-rational model, NaN-propagating). -/
def F.add : F → F → F
  | .val a, .val b => .val (a + b)
  | _, _ => .nan

/-- Division of `f64` values (exact-rational model).  A zero denominator yields NaN,
which matches IEEE for the `0.0 / 0.0` case, the only zero-denominator
division reachable in this program. -/
def F.div : F → F → F
  | .val a, .val b => if b = 0 then .nan else .val (a / b)
  | _, _ => .nan

/-- Predicate: the value is a finite float lying in the unit interval `[0, 1]`. -/
def F.finiteInUnit (f : F) : Prop := ∃ q : ℚ, f = F.val q ∧ 0 ≤ q ∧ q ≤ 1

/-- Model of a `serde_json` number, mirroring how `serde_json` stores numbers:
a non-negative integer fitting `u64`, a negative integer fitting `i64`, or a
float (`ℚ` standing in for `f64`).  `Value::as_u64` answers `Some` exactly on
the first form. -/
inductive JNum where
  | uint (n : ℕ) : JNum
  | int (n : ℤ) : JNum
  | float (q : ℚ) : JNum
deriving DecidableEq, Repr

/-- Model of a `serde_json::Value`. -/
inductive Json where
  | null : Json
  | bool (b : Bool) : Json
  | num (n : JNum) : Json
  | str (s : String) : Json
  | arr (xs : List Json) : Json
  | obj (fields : List (String × Json)) : Json
deriving Repr

/-- Model of `Value::as_array`. -/
def Json.as_array : Json → Option (List Json)
  | .arr xs => some xs
  | _ => none

/-- Model of `Value::as_str`. -/
def Json.as_str : Json → Option String
  | .str s => some s
  | _ => none

/-- Model of `Value::as_u64`: `Some` exactly when the number is stored as a `u64`,
i.e. a non-negative integer. -/
def Json.as_u64 : Json → Option ℕ
  | .num (.uint n) => some n
  | _ => none

/-- One iteration of the entry-parsing loop of `load_frequency_dict`
(src/main.rs lines 44-59): the entry must be an array of length at least two,
its first element a string (`as_str`), its second a `u64` (`as_u64`); each
failure `bail!`s with its own message. -/
def parseEntry : Json → Except String (String × ℕ)
  | .arr (w :: c :: _) =>
    match w.as_str with
    | some word =>
      match c.as_u64 with
      | some count => .ok (word, count)
      | none => .error "Второй элемент не число"
    | none => .error "Первый элемент не строка"
  | .arr _ => .error "Элемент массива словаря имеет длину < 2"
  | _ => .error "Элемент словаря не является массивом из двух значений"

/-- The entry-parsing loop: entries are parsed in order and the first failure
aborts the whole load (`bail!` / `?` propagation). -/
def parseItems : List Json → Except String (List (String × ℕ))
  | [] => .ok []
  | v :: rest =>
    (parseEntry v).bind fun p => (parseItems rest).map (fun items => p :: items)

/-- Truncation `items.truncate(k.min(items.len()))` when a top-K limit is given
(src/main.rs lines 62-64). -/
def truncateItems (items : List (String × ℕ)) : Option ℕ → List (String × ℕ)
  | some k => items.take (min k items.length)
  | none => items

/-- The maximum `items.iter().map(|(_, c)| *c).max().unwrap_or(1)` (src/main.rs line 70).
Note the `unwrap_or(1)` fires only for an empty list, which the caller has
already ruled out; it is not a lower clamp on the maximum itself. -/
def maxCount (items : List (String × ℕ)) : ℕ :=
  match (items.map Prod.snd).max? with
  | some m => m
  | none => 1

/-- Model of `HashMap::insert` on a key-unique association list: any previous
binding of the key is removed and the new binding appended (overwrite). -/
def hmInsert (m : List (String × F)) (k : String) (v : F) : List (String × F) :=
  (m.filter (fun p => p.1 ≠ k)) ++ [(k, v)]

/-- Model of `HashMap::get` on the association list. -/
def hmGet? (m : List (String × F)) (k : String) : Option F :=
  (m.find? (fun p => p.1 = k)).map Prod.snd

/-- The map-building loop of `load_frequency_dict` (src/main.rs lines 73-77):
each kept entry's weight is `(c as f64) / max_count_f`, inserted with
`HashMap` overwrite semantics. -/
def buildMap (items : List (String × ℕ)) : List (String × F) :=
  items.foldl
    (fun m p => hmInsert m p.1 (F.div (F.val (p.2 : ℚ)) (F.val (maxCount items : ℚ))))
    []

/-- Embedding of `load_frequency_dict` from the parsed JSON value on (the file read and the
JSON text parse are I/O plumbing outside the claims): check the top level is
an array, parse the entries, truncate to the optional top-K, fail if empty,
then build the weight map (src/main.rs lines 39-78). -/
def load_frequency_dict (json : Json) (top_k : Option ℕ) :
    Except String (List (String × F)) :=
  match json.as_array with
  | none => .error "Ожидался JSON-массив верхнего уровня"
  | some arr =>
    (parseItems arr).bind fun items =>
      let kept := truncateItems items top_k
      if kept.isEmpty then .error "Словарь пуст"
      else .ok (buildMap kept)

/-! ## Tokenizer

`tokenize_english_words` (src/main.rs lines 98-105) collects the
non-overlapping, leftmost matches of the regex `[A-Za-z]+(?:'[A-Za-z]+)?`
over the text and ASCII-lowercases each match.  `scan` renders that regex
search operationally as a left-to-right state machine over the characters:
outside a match; inside the first letter run; just past an apostrophe that
followed the first run; inside the second letter run.  -/

/-- ASCII letter test, the character class `[A-Za-z]`. -/
def isAsciiLetter (c : Char) : Bool :=
  (65 ≤ c.toNat && c.toNat ≤ 90) || (97 ≤ c.toNat && c.toNat ≤ 122)

/-- The apostrophe character. -/
def apos : Char := Char.ofNat 39

/-- Model of `char::to_ascii_lowercase`. -/
def asciiToLower (c : Char) : Char :=
  if 65 ≤ c.toNat ∧ c.toNat ≤ 90 then Char.ofNat (c.toNat + 32) else c

/-- State of the regex scanner. -/
inductive TState where
  | out : TState
  | run1 (acc : List Char) : TState
  | sawApos (acc : List Char) : TState
  | run2 (acc : List Char) : TState

/-- One left-to-right pass of the regex search `[A-Za-z]+(?:'[A-Za-z]+)?`
(`find_iter`): each completed match is emitted in order.  In state `sawApos`
a non-letter ends the match at the first run; the apostrophe and the current
character are separators, and neither can start a match, so scanning resumes
past them. -/
def scan : List Char → TState → List (List Char)
  | [], .out => []
  | [], .run1 acc => [acc]
  | [], .sawApos acc => [acc]
  | [], .run2 acc => [acc]
  | c :: cs, .out =>
    if isAsciiLetter c then scan cs (.run1 [c]) else scan cs .out
  | c :: cs, .run1 acc =>
    if isAsciiLetter c then scan cs (.run1 (acc ++ [c]))
    else if c = apos then scan cs (.sawApos acc)
    else acc :: scan cs .out
  | c :: cs, .sawApos acc =>
    if isAsciiLetter c then scan cs (.run2 (acc ++ [apos, c]))
    else acc :: scan cs .out
  | c :: cs, .run2 acc =>
    if isAsciiLetter c then scan cs (.run2 (acc ++ [c]))
    else acc :: scan cs .out

/-- Embedding of `tokenize_english_words`: all regex matches over the text, in order of
occurrence, each ASCII-lowercased. -/
def tokenize_english_words (text : String) : List String :=
  (scan text.data .out).map (fun t => String.mk (t.map asciiToLower))

/-- Negation of `isAsciiLetter`, the separator class of the spec. -/
def notLetter (c : Char) : Bool := !(isAsciiLetter c)

theorem length_dropWhile_le {α : Type} (p : α → Bool) (l : List α) :
    (l.dropWhile p).length ≤ l.length := by
  induction l with
  | nil => simp
  | cons a l ih =>
    rw [List.dropWhile_cons]
    split
    · exact Nat.le_succ_of_le ih
    · simp

theorem isAsciiLetter_of_dropWhile_notLetter {cs rest : List Char} {c : Char}
    (h : cs.dropWhile notLetter = c :: rest) : isAsciiLetter c = true := by
  have := List.head?_dropWhile_not notLetter cs
  rw [h] at this
  simpa [notLetter] using this

/-- Tokenization as the specification words it: skip separators, take the
maximal (`takeWhile`) run of ASCII letters, optionally extend it by a single
apostrophe followed by another maximal letter run, emit the token, and
continue after it.  This is the declarative counterpart against which `scan`
(the operational reading of the source regex) is proved equal. -/
def specTokens (cs : List Char) : List (List Char) :=
  match h : cs.dropWhile notLetter with
  | [] => []
  | c :: rest =>
    match h2 : (c :: rest).dropWhile isAsciiLetter with
    | [] => [(c :: rest).takeWhile isAsciiLetter]
    | d :: r2 =>
      if d = apos ∧ r2.takeWhile isAsciiLetter ≠ [] then
        ((c :: rest).takeWhile isAsciiLetter ++ apos :: r2.takeWhile isAsciiLetter)
          :: specTokens (r2.dropWhile isAsciiLetter)
      else
        ((c :: rest).takeWhile isAsciiLetter) :: specTokens (d :: r2)
termination_by cs.length
decreasing_by
  · have hc : (c :: rest).length ≤ cs.length := by
      rw [← h]; exact length_dropWhile_le _ _
    have hd : (d :: r2).length ≤ (c :: rest).length := by
      rw [← h2]; exact length_dropWhile_le _ _
    have hr : (r2.dropWhile isAsciiLetter).length ≤ r2.length := length_dropWhile_le _ _
    simp only [List.length_cons] at hc hd
    omega
  · have hc : (c :: rest).length ≤ cs.length := by
      rw [← h]; exact length_dropWhile_le _ _
    have hletter : isAsciiLetter c = true := isAsciiLetter_of_dropWhile_notLetter h
    rw [List.dropWhile_cons_of_pos hletter] at h2
    have hd : (d :: r2).length ≤ rest.length := by
      rw [← h2]; exact length_dropWhile_le _ _
    simp only [List.length_cons] at hc hd ⊢
    omega

/-! ## Score computation -/

/-- The tokens actually scored: the first `n` when `--top-text-words` is
given (`iter.take(n)`), otherwise all of them (src/main.rs lines 112-117). -/
def consideredTokens (tokens : List String) : Option ℕ → List String
  | some n => tokens.take n
  | none => tokens

/-- Lookup `dict_weights.get(w).copied().unwrap_or(0.0)` (src/main.rs line 123). -/
def lookupWeight (dict : List (String × F)) (w : String) : F :=
  (hmGet? dict w).getD (F.val 0)

/-- The accumulation loop `sum += wgt` starting from `0.0f64`
(src/main.rs lines 119-126). -/
def sumWeights (dict : List (String × F)) (toks : List String) : F :=
  toks.foldl (fun s w => F.add s (lookupWeight dict w)) (F.val 0)

/-- Embedding of `compute_readability` (src/main.rs lines 107-129): sum the weights of the
considered tokens, count them, and return `sum / cnt`, or `None` when no
token was considered. -/
def compute_readability (tokens : List String) (dict_weights : List (String × F))
    (top_text_words : Option ℕ) : Option F :=
  let considered := consideredTokens tokens top_text_words
  if considered.length = 0 then none
  else some (F.div (sumWeights dict_weights considered) (F.val (considered.length : ℚ)))

/-- The driver (`main`, src/main.rs lines 131-145), from the parsed
dictionary JSON and the text content on: load the dictionary, tokenize,
score, and turn a missing score into the fatal "no words" error. -/
def pipeline (json : Json) (top_k : Option ℕ) (text : String) (top_n : Option ℕ) :
    Except String F :=
  (load_frequency_dict json top_k).bind fun dict =>
    match compute_readability (tokenize_english_words text) dict top_n with
    | none => .error "Не найдено ни одного слова для оценки"
    | some s => .ok s

/-- Shape of an entry that the parsing loop accepts: an array of length at
least two whose first element is a string and whose second is a `u64`. -/
def entryShapeOk : Json → Bool
  | .arr (w :: c :: _) => w.as_str.isSome && c.as_u64.isSome
  | _ => false

/-! ## Theorems

### The scanner produces exactly the spec's maximal-run tokens -/

theorem scan_out_cons_of_neg {g : Char} (r : List Char) (hg : isAsciiLetter g = false) :
    scan (g :: r) .out = scan r .out := by
  simp [scan, hg]

theorem scan_out_eq_dropWhile (cs : List Char) :
    scan cs .out =
      match cs.dropWhile notLetter with
      | [] => []
      | c :: rest => scan rest (.run1 [c]) := by
  induction cs with
  | nil => simp [scan]
  | cons c cs ih =>
    by_cases hc : isAsciiLetter c
    · rw [List.dropWhile_cons_of_neg (by simp [notLetter, hc])]
      simp [scan, hc]
    · rw [List.dropWhile_cons_of_pos (by simp [notLetter, hc])]
      rw [← ih]
      simp [scan, hc]

theorem scan_run2_eq (cs : List Char) : ∀ acc,
    scan cs (.run2 acc) =
      (acc ++ cs.takeWhile isAsciiLetter) ::
        (match cs.dropWhile isAsciiLetter with
         | [] => []
         | _ :: r4 => scan r4 .out) := by
  induction cs with
  | nil => intro acc; simp [scan]
  | cons c cs ih =>
    intro acc
    by_cases hc : isAsciiLetter c
    · rw [List.takeWhile_cons_of_pos hc, List.dropWhile_cons_of_pos hc]
      have hstep : scan (c :: cs) (.run2 acc) = scan cs (.run2 (acc ++ [c])) := by
        simp [scan, hc]
      rw [hstep, ih]
      simp
    · rw [List.takeWhile_cons_of_neg (by simp [hc]), List.dropWhile_cons_of_neg (by simp [hc])]
      simp [scan, hc]

theorem scan_run1_eq (cs : List Char) : ∀ acc,
    scan cs (.run1 acc) =
      match cs.dropWhile isAsciiLetter with
      | [] => [acc ++ cs.takeWhile isAsciiLetter]
      | d :: r2 =>
        if d = apos then scan r2 (.sawApos (acc ++ cs.takeWhile isAsciiLetter))
        else (acc ++ cs.takeWhile isAsciiLetter) :: scan r2 .out := by
  induction cs with
  | nil => intro acc; simp [scan]
  | cons c cs ih =>
    intro acc
    by_cases hc : isAsciiLetter c
    · rw [List.takeWhile_cons_of_pos hc, List.dropWhile_cons_of_pos hc]
      have hstep : scan (c :: cs) (.run1 acc) = scan cs (.run1 (acc ++ [c])) := by
        simp [scan, hc]
      rw [hstep, ih]
      cases hdw : cs.dropWhile isAsciiLetter <;> simp
    · rw [List.takeWhile_cons_of_neg (by simp [hc]), List.dropWhile_cons_of_neg (by simp [hc])]
      by_cases hap : c = apos
      · subst hap
        simp [scan, hc]
      · simp [scan, hc, hap]

theorem isAsciiLetter_apos : isAsciiLetter apos = false := by decide

theorem specTokens_skip_nil {cs : List Char} (h : cs.dropWhile notLetter = []) :
    specTokens cs = [] := by
  rw [specTokens]
  split
  · rfl
  · rename_i c rest heq
    rw [h] at heq
    cases heq

theorem specTokens_run_to_end {cs : List Char} {c : Char} {rest : List Char}
    (h : cs.dropWhile notLetter = c :: rest)
    (h2 : (c :: rest).dropWhile isAsciiLetter = []) :
    specTokens cs = [(c :: rest).takeWhile isAsciiLetter] := by
  rw [specTokens]
  split
  · rename_i heq
    rw [h] at heq
    cases heq
  · rename_i c' rest' heq
    rw [h] at heq
    injection heq with e1 e2
    subst e1
    subst e2
    split
    · rfl
    · rename_i d r2 heq2
      rw [h2] at heq2
      cases heq2

theorem specTokens_tok_apos {cs : List Char} {c d : Char} {rest r2 : List Char}
    (h : cs.dropWhile notLetter = c :: rest)
    (h2 : (c :: rest).dropWhile isAsciiLetter = d :: r2)
    (hcond : d = apos ∧ r2.takeWhile isAsciiLetter ≠ []) :
    specTokens cs =
      ((c :: rest).takeWhile isAsciiLetter ++ apos :: r2.takeWhile isAsciiLetter)
        :: specTokens (r2.dropWhile isAsciiLetter) := by
  rw [specTokens]
  split
  · rename_i heq
    rw [h] at heq
    cases heq
  · rename_i c' rest' heq
    rw [h] at heq
    injection heq with e1 e2
    subst e1
    subst e2
    split
    · rename_i heq2
      rw [h2] at heq2
      cases heq2
    · rename_i d' r2' heq2
      rw [h2] at heq2
      injection heq2 with e3 e4
      subst e3
      subst e4
      rw [if_pos hcond]

theorem specTokens_tok_plain {cs : List Char} {c d : Char} {rest r2 : List Char}
    (h : cs.dropWhile notLetter = c :: rest)
    (h2 : (c :: rest).dropWhile isAsciiLetter = d :: r2)
    (hcond : ¬(d = apos ∧ r2.takeWhile isAsciiLetter ≠ [])) :
    specTokens cs =
      ((c :: rest).takeWhile isAsciiLetter) :: specTokens (d :: r2) := by
  rw [specTokens]
  split
  · rename_i heq
    rw [h] at heq
    cases heq
  · rename_i c' rest' heq
    rw [h] at heq
    injection heq with e1 e2
    subst e1
    subst e2
    split
    · rename_i heq2
      rw [h2] at heq2
      cases heq2
    · rename_i d' r2' heq2
      rw [h2] at heq2
      injection heq2 with e3 e4
      subst e3
      subst e4
      rw [if_neg hcond]

theorem specTokens_nil : specTokens [] = [] :=
  specTokens_skip_nil rfl

theorem scan_out_eq_specTokens (cs : List Char) : scan cs .out = specTokens cs := by
  induction cs using specTokens.induct with
  | case1 x h =>
    rw [specTokens_skip_nil h, scan_out_eq_dropWhile, h]
  | case2 x c rest h h2 =>
    have hc : isAsciiLetter c = true := isAsciiLetter_of_dropWhile_notLetter h
    have hrest : rest.dropWhile isAsciiLetter = [] := by
      rwa [List.dropWhile_cons_of_pos hc] at h2
    rw [scan_out_eq_dropWhile, h]
    dsimp only []
    rw [scan_run1_eq, hrest, specTokens_run_to_end h h2]
    dsimp only []
    rw [List.takeWhile_cons_of_pos hc]
    rfl
  | case3 x c rest h d r2 h2 hcond ih =>
    have hc : isAsciiLetter c = true := isAsciiLetter_of_dropWhile_notLetter h
    obtain ⟨hdap, hne⟩ := hcond
    subst hdap
    have hrest : rest.dropWhile isAsciiLetter = apos :: r2 := by
      rwa [List.dropWhile_cons_of_pos hc] at h2
    obtain ⟨e, r3, rfl⟩ : ∃ e r3, r2 = e :: r3 := by
      cases r2 with
      | nil => simp at hne
      | cons e r3 => exact ⟨e, r3, rfl⟩
    have he : isAsciiLetter e = true := by
      by_contra he'
      rw [List.takeWhile_cons_of_neg (by simpa using he')] at hne
      exact hne rfl
    have ih' : scan (r3.dropWhile isAsciiLetter) .out =
        specTokens (r3.dropWhile isAsciiLetter) := by
      rwa [List.dropWhile_cons_of_pos he] at ih
    rw [scan_out_eq_dropWhile, h]
    dsimp only []
    rw [scan_run1_eq, hrest]
    dsimp only []
    rw [if_pos rfl]
    have hstep : scan (e :: r3) (.sawApos ([c] ++ rest.takeWhile isAsciiLetter)) =
        scan r3 (.run2 (([c] ++ rest.takeWhile isAsciiLetter) ++ [apos, e])) := by
      simp [scan, he]
    rw [hstep, scan_run2_eq]
    rw [specTokens_tok_apos h h2 ⟨rfl, hne⟩]
    rw [List.takeWhile_cons_of_pos hc, List.takeWhile_cons_of_pos he,
      List.dropWhile_cons_of_pos he]
    simp only [List.cons.injEq]
    constructor
    · simp
    · cases hdw : r3.dropWhile isAsciiLetter with
      | nil =>
        dsimp only []
        rw [specTokens_nil]
      | cons g r4 =>
        have hg : isAsciiLetter g = false := by
          have := List.head?_dropWhile_not isAsciiLetter r3
          rw [hdw] at this
          simpa using this
        dsimp only []
        rw [hdw] at ih'
        rw [← ih', scan_out_cons_of_neg r4 hg]
  | case4 x c rest h d r2 h2 hcond ih =>
    have hc : isAsciiLetter c = true := isAsciiLetter_of_dropWhile_notLetter h
    have hrest : rest.dropWhile isAsciiLetter = d :: r2 := by
      rwa [List.dropWhile_cons_of_pos hc] at h2
    have hd : isAsciiLetter d = false := by
      have := List.head?_dropWhile_not isAsciiLetter rest
      rw [hrest] at this
      simpa using this
    rw [scan_out_eq_dropWhile, h]
    dsimp only []
    rw [scan_run1_eq, hrest]
    dsimp only []
    rw [specTokens_tok_plain h h2 hcond, List.takeWhile_cons_of_pos hc]
    by_cases hdap : d = apos
    · subst hdap
      rw [if_pos rfl]
      have hr2 : r2.takeWhile isAsciiLetter = [] := by
        by_contra hr2'
        exact hcond ⟨rfl, hr2'⟩
      cases r2 with
      | nil =>
        rw [specTokens_skip_nil (by decide)]
        simp [scan]
      | cons e r3 =>
        have he : isAsciiLetter e = false := by
          by_contra he'
          rw [List.takeWhile_cons_of_pos (by simpa using he')] at hr2
          cases hr2
        have hstep : scan (e :: r3) (.sawApos ([c] ++ rest.takeWhile isAsciiLetter)) =
            ([c] ++ rest.takeWhile isAsciiLetter) :: scan r3 .out := by
          simp [scan, he]
        rw [hstep, ← ih, scan_out_cons_of_neg _ isAsciiLetter_apos,
          scan_out_cons_of_neg _ he]
        rfl
    · rw [if_neg hdap]
      rw [← ih, scan_out_cons_of_neg _ hd]
      rfl

/-! ### Weight-table lemmas -/

theorem find?_hmInsert_self (m : List (String × F)) (k : String) (v : F) :
    (hmInsert m k v).find? (fun p => p.1 = k) = some (k, v) := by
  induction m with
  | nil => simp [hmInsert, List.find?]
  | cons a m ih =>
    rw [hmInsert] at ih ⊢
    rw [List.filter_cons]
    by_cases hak : a.1 = k
    · rw [if_neg (by simpa using hak)]
      exact ih
    · rw [if_pos (by simpa using hak), List.cons_append,
        List.find?_cons_of_neg _ (by simpa using hak)]
      exact ih

theorem find?_hmInsert_other (m : List (String × F)) (k w : String) (v : F)
    (hwk : w ≠ k) :
    (hmInsert m k v).find? (fun p => p.1 = w) = m.find? (fun p => p.1 = w) := by
  induction m with
  | nil =>
    simp [hmInsert, List.find?, Ne.symm hwk]
  | cons a m ih =>
    rw [hmInsert] at ih ⊢
    rw [List.filter_cons]
    by_cases hak : a.1 = k
    · have haw : ¬ (a.1 = w) := by
        intro h
        apply hwk
        rw [← h, hak]
      rw [if_neg (by simpa using hak), ih,
        List.find?_cons_of_neg _ (by simpa using haw)]
    · rw [if_pos (by simpa using hak), List.cons_append]
      by_cases haw : a.1 = w
      · rw [List.find?_cons_of_pos _ (by simpa using haw),
          List.find?_cons_of_pos _ (by simpa using haw)]
      · rw [List.find?_cons_of_neg _ (by simpa using haw),
          List.find?_cons_of_neg _ (by simpa using haw), ih]

theorem hmGet?_hmInsert (m : List (String × F)) (k w : String) (v : F) :
    hmGet? (hmInsert m k v) w = if w = k then some v else hmGet? m w := by
  by_cases hwk : w = k
  · subst hwk
    rw [hmGet?, find?_hmInsert_self, if_pos rfl]
    rfl
  · rw [hmGet?, find?_hmInsert_other m k w v hwk, if_neg hwk]
    rfl

theorem hmGet?_foldl_insert (f : String × ℕ → F) (w : String) :
    ∀ (l : List (String × ℕ)) (m0 : List (String × F)),
      hmGet? (l.foldl (fun m p => hmInsert m p.1 (f p)) m0) w =
        match (l.filter (fun p => p.1 = w)).getLast? with
        | some p => some (f p)
        | none => hmGet? m0 w := by
  intro l
  induction l with
  | nil => intro m0; rfl
  | cons a l ih =>
    intro m0
    rw [List.foldl_cons, ih]
    by_cases haw : a.1 = w
    · rw [List.filter_cons_of_pos (by simpa using haw)]
      cases hfl : l.filter (fun p => p.1 = w) with
      | nil =>
        simp only [List.getLast?_nil, List.getLast?_singleton]
        rw [hmGet?_hmInsert, if_pos haw.symm]
      | cons q fl =>
        rw [List.getLast?_cons_cons]
        obtain ⟨z, hz⟩ : ∃ z, (q :: fl).getLast? = some z :=
          Option.isSome_iff_exists.mp (List.getLast?_isSome.mpr (by simp))
        rw [hz]
    · rw [List.filter_cons_of_neg (by simpa using haw)]
      cases hfl : (l.filter (fun p => p.1 = w)).getLast? with
      | some q => rfl
      | none =>
        show hmGet? (hmInsert m0 a.1 (f a)) w = hmGet? m0 w
        rw [hmGet?_hmInsert, if_neg (fun h => haw h.symm)]

/-- Last-write-wins: looking a word up in the built map yields the weight of
its last occurrence among the kept entries. -/
theorem hmGet?_buildMap (items : List (String × ℕ)) (w : String) :
    hmGet? (buildMap items) w =
      ((items.filter (fun p => p.1 = w)).getLast?).map
        (fun p => F.div (F.val (p.2 : ℚ)) (F.val (maxCount items : ℚ))) := by
  rw [buildMap, hmGet?_foldl_insert]
  cases (items.filter (fun p => p.1 = w)).getLast? with
  | some q => rfl
  | none => rfl

/-- The built map binds exactly the words of the kept entries. -/
theorem hmGet?_buildMap_isSome (items : List (String × ℕ)) (w : String) :
    (hmGet? (buildMap items) w).isSome = true ↔ w ∈ items.map Prod.fst := by
  rw [hmGet?_buildMap]
  have h2 : (Option.map (fun p => F.div (F.val (p.2 : ℚ)) (F.val (maxCount items : ℚ)))
      ((items.filter (fun p => p.1 = w)).getLast?)).isSome
      = ((items.filter (fun p => p.1 = w)).getLast?).isSome := by
    cases (items.filter (fun p => p.1 = w)).getLast? <;> rfl
  rw [h2, List.getLast?_isSome]
  constructor
  · intro hne
    obtain ⟨p, hp⟩ := List.exists_mem_of_ne_nil _ hne
    have hmem := List.mem_filter.mp hp
    exact List.mem_map.mpr ⟨p, hmem.1, by simpa using hmem.2⟩
  · intro hmem hnil
    obtain ⟨p, hp, hpw⟩ := List.mem_map.mp hmem
    have := List.filter_eq_nil_iff.mp hnil p hp
    simp [hpw] at this

theorem mem_le_maxCount {items : List (String × ℕ)} {p : String × ℕ}
    (hp : p ∈ items) : p.2 ≤ maxCount items := by
  rw [maxCount]
  cases hmax : (items.map Prod.snd).max? with
  | none =>
    rw [List.max?_eq_none_iff, List.map_eq_nil_iff] at hmax
    subst hmax
    cases hp
  | some m =>
    exact (List.max?_eq_some_iff'.mp hmax).2 p.2 (List.mem_map_of_mem Prod.snd hp)

theorem mem_of_getLast?_eq {α : Type} {l : List α} {a : α}
    (h : l.getLast? = some a) : a ∈ l := by
  have ha : a ∈ l.getLast? := h ▸ rfl
  obtain ⟨hne, heq⟩ := List.mem_getLast?_eq_getLast ha
  rw [heq]
  exact List.getLast_mem hne

/-- With a nonzero maximum count, every weight in the built table is
`count / max_count` for a kept entry bearing that word, and lies in `[0,1]`. -/
theorem buildMap_weight_unit {items : List (String × ℕ)}
    (hmax : maxCount items ≠ 0) {w : String} {f : F}
    (hf : hmGet? (buildMap items) w = some f) :
    ∃ p, p ∈ items ∧ p.1 = w ∧ f = F.val ((p.2 : ℚ) / (maxCount items : ℚ)) ∧
      0 ≤ (p.2 : ℚ) / (maxCount items : ℚ) ∧ (p.2 : ℚ) / (maxCount items : ℚ) ≤ 1 := by
  rw [hmGet?_buildMap] at hf
  cases hfl : (items.filter (fun p => p.1 = w)).getLast? with
  | none =>
    rw [hfl] at hf
    cases hf
  | some p =>
    rw [hfl] at hf
    have hmem := List.mem_filter.mp (mem_of_getLast?_eq hfl)
    have hple : p.2 ≤ maxCount items := mem_le_maxCount hmem.1
    have hMpos : (0 : ℚ) < (maxCount items : ℚ) := by
      exact_mod_cast Nat.pos_of_ne_zero hmax
    refine ⟨p, hmem.1, by simpa using hmem.2, ?_, ?_, ?_⟩
    · rw [Option.map_some'] at hf
      injection hf with hf
      rw [← hf, F.div, if_neg (ne_of_gt hMpos)]
    · positivity
    · rw [div_le_one hMpos]
      exact_mod_cast hple

/-- The weight computed for a maximum-count entry is exactly `1.0`. -/
theorem max_entry_weight_one {items : List (String × ℕ)}
    (hmax : maxCount items ≠ 0) {p : String × ℕ} (hp : p ∈ items)
    (hpm : p.2 = maxCount items) :
    F.div (F.val (p.2 : ℚ)) (F.val (maxCount items : ℚ)) = F.val 1 := by
  have hMpos : (0 : ℚ) < (maxCount items : ℚ) := by
    exact_mod_cast Nat.pos_of_ne_zero hmax
  rw [F.div, if_neg (ne_of_gt hMpos), hpm, div_self (ne_of_gt hMpos)]

/-- Summing weights that all lie in `[0,1]` from a starting value `a` gives a
finite value between `a` and `a + n`. -/
theorem sumWeights_bound (dict : List (String × F))
    (hdict : ∀ w f, hmGet? dict w = some f → ∃ q, f = F.val q ∧ 0 ≤ q ∧ q ≤ 1) :
    ∀ (toks : List String) (a : ℚ),
      ∃ s : ℚ,
        toks.foldl (fun s w => F.add s (lookupWeight dict w)) (F.val a) = F.val s ∧
        a ≤ s ∧ s ≤ a + toks.length := by
  intro toks
  induction toks with
  | nil =>
    intro a
    exact ⟨a, rfl, le_refl a, by simp⟩
  | cons t toks ih =>
    intro a
    obtain ⟨q, hq, hq0, hq1⟩ : ∃ q, lookupWeight dict t = F.val q ∧ 0 ≤ q ∧ q ≤ 1 := by
      rw [lookupWeight]
      cases hg : hmGet? dict t with
      | none => exact ⟨0, rfl, le_refl 0, zero_le_one⟩
      | some f =>
        obtain ⟨q, hfq, h0, h1⟩ := hdict _ _ hg
        exact ⟨q, by simp [hfq], h0, h1⟩
    rw [List.foldl_cons, hq]
    have hadd : F.add (F.val a) (F.val q) = F.val (a + q) := rfl
    rw [hadd]
    obtain ⟨s, hs, hs1, hs2⟩ := ih (a + q)
    refine ⟨s, hs, by linarith, ?_⟩
    have : ((t :: toks).length : ℚ) = (toks.length : ℚ) + 1 := by
      push_cast [List.length_cons]
      ring
    rw [this]
    linarith

/-- A score produced from a table of unit-interval weights is a finite value
in `[0,1]`. -/
theorem compute_readability_unit {toks : List String} {dict : List (String × F)}
    {tn : Option ℕ} {f : F}
    (hdict : ∀ w g, hmGet? dict w = some g → ∃ q, g = F.val q ∧ 0 ≤ q ∧ q ≤ 1)
    (h : compute_readability toks dict tn = some f) : F.finiteInUnit f := by
  rw [compute_readability] at h
  set cons := consideredTokens toks tn with hcons
  by_cases hn : cons.length = 0
  · rw [if_pos hn] at h
    cases h
  · rw [if_neg hn] at h
    obtain ⟨s, hs, hs0, hsn⟩ := sumWeights_bound dict hdict cons 0
    rw [sumWeights] at h
    rw [hs] at h
    have hnpos : (0 : ℚ) < (cons.length : ℚ) := by
      exact_mod_cast Nat.pos_of_ne_zero hn
    rw [F.div, if_neg (ne_of_gt hnpos)] at h
    injection h with h
    refine ⟨s / (cons.length : ℚ), h.symm, by positivity, ?_⟩
    rw [div_le_one hnpos]
    linarith

theorem take_eq_take_min {α : Type} (l : List α) (n : ℕ) :
    l.take n = l.take (min n l.length) := by
  rcases Nat.le_total n l.length with h | h
  · rw [Nat.min_eq_left h]
  · rw [Nat.min_eq_right h, List.take_of_length_le h,
      List.take_of_length_le (Nat.le_refl _)]

/-! ### Shape of produced tokens -/

theorem specTokens_shape (cs : List Char) :
    ∀ t ∈ specTokens cs,
      ∃ r1 r2 : List Char, r1 ≠ [] ∧ (∀ c ∈ r1, isAsciiLetter c = true) ∧
        (t = r1 ∨ (r2 ≠ [] ∧ (∀ c ∈ r2, isAsciiLetter c = true) ∧
          t = r1 ++ apos :: r2)) := by
  induction cs using specTokens.induct with
  | case1 x h =>
    rw [specTokens_skip_nil h]
    intro t ht
    cases ht
  | case2 x c rest h h2 =>
    rw [specTokens_run_to_end h h2]
    intro t ht
    have hc := isAsciiLetter_of_dropWhile_notLetter h
    have ht' : t = (c :: rest).takeWhile isAsciiLetter := List.mem_singleton.mp ht
    refine ⟨(c :: rest).takeWhile isAsciiLetter, [], ?_, ?_, Or.inl ht'⟩
    · rw [List.takeWhile_cons_of_pos hc]
      simp
    · intro a ha
      exact List.mem_takeWhile_imp ha
  | case3 x c rest h d r2 h2 hcond ih =>
    rw [specTokens_tok_apos h h2 hcond]
    intro t ht
    have hc := isAsciiLetter_of_dropWhile_notLetter h
    rcases List.mem_cons.mp ht with rfl | hmem
    · refine ⟨(c :: rest).takeWhile isAsciiLetter, r2.takeWhile isAsciiLetter,
        ?_, ?_, Or.inr ⟨hcond.2, ?_, ?_⟩⟩
      · rw [List.takeWhile_cons_of_pos hc]
        simp
      · intro a ha
        exact List.mem_takeWhile_imp ha
      · intro a ha
        exact List.mem_takeWhile_imp ha
      · rfl
    · exact ih t hmem
  | case4 x c rest h d r2 h2 hcond ih =>
    rw [specTokens_tok_plain h h2 hcond]
    intro t ht
    have hc := isAsciiLetter_of_dropWhile_notLetter h
    rcases List.mem_cons.mp ht with rfl | hmem
    · refine ⟨(c :: rest).takeWhile isAsciiLetter, [], ?_, ?_, Or.inl rfl⟩
      · rw [List.takeWhile_cons_of_pos hc]
        simp
      · intro a ha
        exact List.mem_takeWhile_imp ha
    · exact ih t hmem

theorem asciiToLower_letter {c : Char} (hc : isAsciiLetter c = true) :
    97 ≤ (asciiToLower c).toNat ∧ (asciiToLower c).toNat ≤ 122 := by
  rw [isAsciiLetter] at hc
  simp only [Bool.or_eq_true, Bool.and_eq_true, decide_eq_true_eq] at hc
  rw [asciiToLower]
  rcases hc with ⟨h1, h2⟩ | ⟨h1, h2⟩
  · rw [if_pos ⟨h1, h2⟩]
    have hofnat : (Char.ofNat (c.toNat + 32)).toNat = c.toNat + 32 := by
      have hv : Nat.isValidChar (c.toNat + 32) := Or.inl (by omega)
      rw [Char.ofNat, dif_pos hv]
      rfl
    rw [hofnat]
    omega
  · rw [if_neg (by omega)]
    omega

theorem apos_toNat : apos.toNat = 39 := by decide

theorem isAsciiLetter_ne_apos {c : Char} (hc : isAsciiLetter c = true) : c ≠ apos := by
  intro he
  rw [he] at hc
  rw [isAsciiLetter_apos] at hc
  cases hc

theorem asciiToLower_apos : asciiToLower apos = apos := by decide

theorem asciiToLower_letter_ne_apos {c : Char} (hc : isAsciiLetter c = true) :
    asciiToLower c ≠ apos := by
  intro he
  have hb := asciiToLower_letter hc
  rw [he, apos_toNat] at hb
  omega

/-- Every token of `tokenize_english_words` is a non-empty string of
lowercase ASCII letters with at most one interior apostrophe, never at
either end. -/
theorem tokenize_token_shape (s : String) :
    ∀ t ∈ tokenize_english_words s,
      t.data ≠ [] ∧
      (∀ c ∈ t.data, (97 ≤ c.toNat ∧ c.toNat ≤ 122) ∨ c = apos) ∧
      t.data.count apos ≤ 1 ∧
      t.data.head? ≠ some apos ∧
      t.data.getLast? ≠ some apos := by
  intro t ht
  rw [tokenize_english_words] at ht
  obtain ⟨u, hu, rfl⟩ := List.mem_map.mp ht
  rw [scan_out_eq_specTokens] at hu
  obtain ⟨r1, r2, hr1ne, hr1l, hsh⟩ := specTokens_shape s.data u hu
  have hdata : (String.mk (u.map asciiToLower)).data = u.map asciiToLower := rfl
  rw [hdata]
  obtain ⟨a, r1', rfl⟩ := List.exists_cons_of_ne_nil hr1ne
  have hal : isAsciiLetter a = true := hr1l a (List.mem_cons_self a r1')
  have hnoape1 : apos ∉ (a :: r1').map asciiToLower := by
    intro hmem
    obtain ⟨b, hb, hbe⟩ := List.mem_map.mp hmem
    exact asciiToLower_letter_ne_apos (hr1l b hb) hbe
  rcases hsh with rfl | ⟨hr2ne, hr2l, rfl⟩
  · refine ⟨by simp, ?_, ?_, ?_, ?_⟩
    · intro c hc
      obtain ⟨b, hb, rfl⟩ := List.mem_map.mp hc
      exact Or.inl (asciiToLower_letter (hr1l b hb))
    · rw [List.count_eq_zero.mpr hnoape1]
      omega
    · rw [List.map_cons, List.head?_cons]
      intro he
      injection he with he
      exact asciiToLower_letter_ne_apos hal he
    · intro he
      exact hnoape1 (mem_of_getLast?_eq he)
  · have hnoape2 : apos ∉ r2.map asciiToLower := by
      intro hmem
      obtain ⟨b, hb, hbe⟩ := List.mem_map.mp hmem
      exact asciiToLower_letter_ne_apos (hr2l b hb) hbe
    have hmapsplit : ((a :: r1') ++ apos :: r2).map asciiToLower =
        (a :: r1').map asciiToLower ++ apos :: r2.map asciiToLower := by
      simp [asciiToLower_apos]
    rw [hmapsplit]
    refine ⟨by simp, ?_, ?_, ?_, ?_⟩
    · intro c hc
      rcases List.mem_append.mp hc with hc1 | hc2
      · obtain ⟨b, hb, rfl⟩ := List.mem_map.mp hc1
        exact Or.inl (asciiToLower_letter (hr1l b hb))
      · rcases List.mem_cons.mp hc2 with rfl | hc2'
        · exact Or.inr rfl
        · obtain ⟨b, hb, rfl⟩ := List.mem_map.mp hc2'
          exact Or.inl (asciiToLower_letter (hr2l b hb))
    · rw [List.count_append, List.count_eq_zero.mpr hnoape1,
        List.count_cons_self, List.count_eq_zero.mpr hnoape2]
    · rw [List.map_cons, List.cons_append, List.head?_cons]
      intro he
      injection he with he
      exact asciiToLower_letter_ne_apos hal he
    · rw [List.getLast?_append]
      obtain ⟨b, r2', rfl⟩ := List.exists_cons_of_ne_nil hr2ne
      obtain ⟨z, hz⟩ := Option.isSome_iff_exists.mp
        (List.getLast?_isSome.mpr (by simp : ((b :: r2').map asciiToLower) ≠ []))
      have hzmem := mem_of_getLast?_eq hz
      obtain ⟨b', hb', hbe⟩ := List.mem_map.mp hzmem
      have hgl : (apos :: (b :: r2').map asciiToLower).getLast? = some z := by
        rw [List.map_cons] at hz ⊢
        rw [List.getLast?_cons_cons]
        exact hz
      rw [hgl]
      intro he
      rw [show (some z).or (((a :: r1').map asciiToLower).getLast?) = some z from rfl] at he
      injection he with he
      exact asciiToLower_letter_ne_apos (hr2l b' hb') (he ▸ hbe)

/-! ### Parse and load failure characterization -/

theorem parseEntry_ok_iff (v : Json) :
    (∃ p, parseEntry v = .ok p) ↔ entryShapeOk v = true := by
  cases v with
  | null => simp [parseEntry, entryShapeOk]
  | bool b => simp [parseEntry, entryShapeOk]
  | num n => simp [parseEntry, entryShapeOk]
  | str s => simp [parseEntry, entryShapeOk]
  | obj fs => simp [parseEntry, entryShapeOk]
  | arr xs =>
    cases xs with
    | nil => simp [parseEntry, entryShapeOk]
    | cons w xs' =>
      cases xs' with
      | nil => simp [parseEntry, entryShapeOk]
      | cons c rest =>
        cases hw : w.as_str with
        | none => simp [parseEntry, entryShapeOk, hw]
        | some word =>
          cases hc : c.as_u64 with
          | none => simp [parseEntry, entryShapeOk, hw, hc]
          | some count => simp [parseEntry, entryShapeOk, hw, hc]

theorem parseEntry_error_cases {v : Json} {e : String} (h : parseEntry v = .error e) :
    e = "Элемент словаря не является массивом из двух значений" ∨
    e = "Элемент массива словаря имеет длину < 2" ∨
    e = "Первый элемент не строка" ∨
    e = "Второй элемент не число" := by
  cases v with
  | null => simp [parseEntry] at h; exact Or.inl h.symm
  | bool b => simp [parseEntry] at h; exact Or.inl h.symm
  | num n => simp [parseEntry] at h; exact Or.inl h.symm
  | str s => simp [parseEntry] at h; exact Or.inl h.symm
  | obj fs => simp [parseEntry] at h; exact Or.inl h.symm
  | arr xs =>
    cases xs with
    | nil => simp [parseEntry] at h; exact Or.inr (Or.inl h.symm)
    | cons w xs' =>
      cases xs' with
      | nil => simp [parseEntry] at h; exact Or.inr (Or.inl h.symm)
      | cons c rest =>
        cases hw : w.as_str with
        | none =>
          simp [parseEntry, hw] at h
          exact Or.inr (Or.inr (Or.inl h.symm))
        | some word =>
          cases hc : c.as_u64 with
          | none =>
            simp [parseEntry, hw, hc] at h
            exact Or.inr (Or.inr (Or.inr h.symm))
          | some count => simp [parseEntry, hw, hc] at h

theorem parseItems_ok_iff (l : List Json) :
    (∃ items, parseItems l = .ok items) ↔ l.all entryShapeOk = true := by
  induction l with
  | nil => simp [parseItems]
  | cons v rest ih =>
    rw [parseItems]
    cases hv : parseEntry v with
    | error e =>
      have hnok : ¬ entryShapeOk v = true := by
        intro hok
        obtain ⟨p, hp⟩ := (parseEntry_ok_iff v).mpr hok
        rw [hv] at hp
        cases hp
      simp [Except.bind, List.all_cons, hnok]
    | ok p =>
      have hok : entryShapeOk v = true := (parseEntry_ok_iff v).mp ⟨p, hv⟩
      cases hrest : parseItems rest with
      | error e =>
        have hnall : ¬ rest.all entryShapeOk = true := by
          intro hall
          obtain ⟨items, hi⟩ := ih.mpr hall
          rw [hrest] at hi
          cases hi
        simp [Except.bind, Except.map, List.all_cons, hnall, hok]
      | ok items =>
        have hall : rest.all entryShapeOk = true := by
          rcases ih.mp ⟨items, hrest⟩ with h
          exact h
        simp [Except.bind, Except.map, List.all_cons, hok, hall]

theorem parseItems_error_cases {l : List Json} {e : String}
    (h : parseItems l = .error e) :
    e = "Элемент словаря не является массивом из двух значений" ∨
    e = "Элемент массива словаря имеет длину < 2" ∨
    e = "Первый элемент не строка" ∨
    e = "Второй элемент не число" := by
  induction l with
  | nil => simp [parseItems] at h
  | cons v rest ih =>
    rw [parseItems] at h
    cases hv : parseEntry v with
    | error e' =>
      rw [hv] at h
      injection h with h
      exact h ▸ parseEntry_error_cases hv
    | ok p =>
      rw [hv] at h
      cases hrest : parseItems rest with
      | error e' =>
        rw [hrest] at h
        injection h with h
        exact ih (h ▸ hrest)
      | ok items =>
        rw [hrest] at h
        cases h

theorem load_error_cases {json : Json} {tk : Option ℕ} {e : String}
    (h : load_frequency_dict json tk = .error e) :
    e = "Ожидался JSON-массив верхнего уровня" ∨
    e = "Элемент словаря не является массивом из двух значений" ∨
    e = "Элемент массива словаря имеет длину < 2" ∨
    e = "Первый элемент не строка" ∨
    e = "Второй элемент не число" ∨
    e = "Словарь пуст" := by
  rw [load_frequency_dict] at h
  cases ha : json.as_array with
  | none =>
    rw [ha] at h
    injection h with h
    exact Or.inl h.symm
  | some arr =>
    rw [ha] at h
    dsimp only [] at h
    cases hit : parseItems arr with
    | error e' =>
      rw [hit] at h
      injection h with h
      rcases parseItems_error_cases (h ▸ hit) with h1 | h1 | h1 | h1
      · exact Or.inr (Or.inl h1)
      · exact Or.inr (Or.inr (Or.inl h1))
      · exact Or.inr (Or.inr (Or.inr (Or.inl h1)))
      · exact Or.inr (Or.inr (Or.inr (Or.inr (Or.inl h1))))
    | ok items =>
      rw [hit] at h
      dsimp only [Except.bind] at h
      by_cases hemp : (truncateItems items tk).isEmpty = true
      · rw [if_pos hemp] at h
        injection h with h
        exact Or.inr (Or.inr (Or.inr (Or.inr (Or.inr h.symm))))
      · rw [if_neg hemp] at h
        cases h

/-- Success characterization of the loader. -/
theorem load_ok_iff (json : Json) (tk : Option ℕ) (m : List (String × F)) :
    load_frequency_dict json tk = .ok m ↔
      ∃ arr items, json.as_array = some arr ∧ parseItems arr = .ok items ∧
        truncateItems items tk ≠ [] ∧ m = buildMap (truncateItems items tk) := by
  rw [load_frequency_dict]
  cases ha : json.as_array with
  | none =>
    constructor
    · intro h
      injection h
    · rintro ⟨arr, items, harr, _⟩
      cases harr
  | some arr =>
    dsimp only []
    cases hit : parseItems arr with
    | error e =>
      dsimp only [Except.bind]
      constructor
      · intro h
        injection h
      · rintro ⟨arr', items, harr, hpi, _, _⟩
        injection harr with harr
        subst harr
        rw [hit] at hpi
        cases hpi
    | ok items =>
      dsimp only [Except.bind]
      by_cases hemp : (truncateItems items tk).isEmpty = true
      · rw [if_pos hemp]
        constructor
        · intro h
          injection h
        · rintro ⟨arr', items', harr, hpi, hne, _⟩
          injection harr with harr
          subst harr
          rw [hit] at hpi
          injection hpi with hpi
          subst hpi
          exact absurd (List.isEmpty_iff.mp hemp) hne
      · rw [if_neg hemp]
        constructor
        · intro h
          injection h with h
          exact ⟨arr, items, rfl, hit,
            fun hnil => hemp (by rw [hnil]; rfl), h.symm⟩
        · rintro ⟨arr', items', harr, hpi, hne, hm⟩
          injection harr with harr
          subst harr
          rw [hit] at hpi
          injection hpi with hpi
          subst hpi
          rw [hm]

/-- The "empty dictionary" failure happens exactly when the kept entry list
after truncation is empty. -/
theorem load_empty_iff (json : Json) (tk : Option ℕ) :
    load_frequency_dict json tk = .error "Словарь пуст" ↔
      ∃ arr items, json.as_array = some arr ∧ parseItems arr = .ok items ∧
        truncateItems items tk = [] := by
  rw [load_frequency_dict]
  cases ha : json.as_array with
  | none =>
    constructor
    · intro h
      injection h with h
      exact absurd h (by decide)
    · rintro ⟨arr, items, harr, _⟩
      cases harr
  | some arr =>
    dsimp only []
    cases hit : parseItems arr with
    | error e =>
      dsimp only [Except.bind]
      constructor
      · intro h
        injection h with h
        rcases parseItems_error_cases (h ▸ hit) with h1 | h1 | h1 | h1 <;>
          exact absurd h1 (by decide)
      · rintro ⟨arr', items, harr, hpi, _⟩
        injection harr with harr
        subst harr
        rw [hit] at hpi
        cases hpi
    | ok items =>
      dsimp only [Except.bind]
      by_cases hemp : (truncateItems items tk).isEmpty = true
      · rw [if_pos hemp]
        constructor
        · intro _
          exact ⟨arr, items, rfl, hit, List.isEmpty_iff.mp hemp⟩
        · intro _
          rfl
      · rw [if_neg hemp]
        constructor
        · intro h
          injection h
        · rintro ⟨arr', items', harr, hpi, hnil⟩
          injection harr with harr
          subst harr
          rw [hit] at hpi
          injection hpi with hpi
          subst hpi
          exact absurd (by rw [hnil]; rfl) hemp

/-- The scorer `compute_readability` returns no score exactly when no token is
considered. -/
theorem compute_readability_none_iff (toks : List String)
    (dict : List (String × F)) (tn : Option ℕ) :
    compute_readability toks dict tn = none ↔ consideredTokens toks tn = [] := by
  rw [compute_readability]
  by_cases h : (consideredTokens toks tn).length = 0
  · rw [if_pos h]
    simp [List.length_eq_zero.mp h]
  · rw [if_neg h]
    constructor
    · intro hc
      cases hc
    · intro hnil
      exact absurd (by rw [hnil]; rfl) h

/-- The driver reports the "no words" error exactly when the dictionary
loaded fine but no token was considered. -/
theorem pipeline_noscore_iff (json : Json) (tk : Option ℕ) (text : String)
    (tn : Option ℕ) :
    pipeline json tk text tn = .error "Не найдено ни одного слова для оценки" ↔
      ∃ m, load_frequency_dict json tk = .ok m ∧
        consideredTokens (tokenize_english_words text) tn = [] := by
  rw [pipeline]
  cases hl : load_frequency_dict json tk with
  | error e =>
    dsimp only [Except.bind]
    constructor
    · intro h
      injection h with h
      rcases load_error_cases (h ▸ hl) with h1 | h1 | h1 | h1 | h1 | h1 <;>
        exact absurd h1 (by decide)
    · rintro ⟨m, hm, _⟩
      cases hm
  | ok m =>
    dsimp only [Except.bind]
    cases hc : compute_readability (tokenize_english_words text) m tn with
    | none =>
      constructor
      · intro _
        exact ⟨m, rfl, (compute_readability_none_iff _ _ _).mp hc⟩
      · intro _
        rfl
    | some s =>
      constructor
      · intro h
        injection h
      · rintro ⟨m2, hm2, hnil⟩
        injection hm2 with hm2
        subst hm2
        have hnone := (compute_readability_none_iff
          (tokenize_english_words text) m tn).mpr hnil
        rw [hc] at hnone
        cases hnone

example : tokenize_english_words "Hello, World!" = ["hello", "world"] := by decide

/-! ### Claim theorems -/

/-- C1 (counterexample).  The claim "the maximum weight present is exactly
1.0 and every weight lies in [0,1]" fails on the code twice over: a
duplicated word whose larger count comes first leaves only the weight of the
smaller last occurrence (`[["a",5],["a",3]]` yields the single weight 0.6),
and an all-zero dictionary divides `0.0 / 0.0` because the
`max().unwrap_or(1)` fallback fires only on an empty list, producing a NaN
weight outside `[0,1]`. -/
theorem weight_table_counterexample :
    load_frequency_dict (Json.arr [Json.arr [Json.str "a", Json.num (JNum.uint 5)],
      Json.arr [Json.str "a", Json.num (JNum.uint 3)]]) none =
      .ok [("a", F.val (3/5))] ∧
    F.val (3/5) ≠ F.val 1 ∧
    load_frequency_dict (Json.arr [Json.arr [Json.str "a", Json.num (JNum.uint 0)]]) none =
      .ok [("a", F.nan)] ∧
    ¬ F.finiteInUnit F.nan := by
  refine ⟨?_, ?_, ?_, ?_⟩
  · simp [load_frequency_dict, Json.as_array, parseItems, parseEntry, Json.as_str, Json.as_u64,
      truncateItems, buildMap, maxCount, hmInsert, F.div, Except.bind, Except.map]
  · intro h
    injection h with h
    norm_num at h
  · simp [load_frequency_dict, Json.as_array, parseItems, parseEntry, Json.as_str, Json.as_u64,
      truncateItems, buildMap, maxCount, hmInsert, F.div, Except.bind, Except.map]
  · rintro ⟨q, hq, _⟩
    cases hq

/-- C1 (amended).  Every accepted dictionary's table is built from the kept
entries with weight `raw_count / max_count`; whenever the maximum raw count
is nonzero (the code has no minimum-1 clamp), every weight present is the
`raw_count / max_count` of a kept entry with that word and lies in `[0,1]`,
and the weight computed for each maximum-count entry is exactly 1.0 (it may
still be absent from the final table if a later duplicate overwrites it). -/
theorem load_weights_amended :
    (∀ (json : Json) (tk : Option ℕ) (m : List (String × F)),
      load_frequency_dict json tk = .ok m →
      ∃ arr items, json.as_array = some arr ∧ parseItems arr = .ok items ∧
        m = buildMap (truncateItems items tk)) ∧
    (∀ items : List (String × ℕ), maxCount items ≠ 0 →
      ∀ w f, hmGet? (buildMap items) w = some f →
        ∃ p, p ∈ items ∧ p.1 = w ∧ f = F.val ((p.2 : ℚ) / (maxCount items : ℚ)) ∧
          0 ≤ (p.2 : ℚ) / (maxCount items : ℚ) ∧ (p.2 : ℚ) / (maxCount items : ℚ) ≤ 1) ∧
    (∀ items : List (String × ℕ), maxCount items ≠ 0 →
      ∀ p, p ∈ items → p.2 = maxCount items →
        F.div (F.val (p.2 : ℚ)) (F.val (maxCount items : ℚ)) = F.val 1) := by
  refine ⟨?_, ?_, ?_⟩
  · intro json tk m hm
    obtain ⟨arr, items, ha, hit, _, hbm⟩ := (load_ok_iff json tk m).mp hm
    exact ⟨arr, items, ha, hit, hbm⟩
  · intro items hmax w f hf
    exact buildMap_weight_unit hmax hf
  · intro items hmax p hp hpm
    exact max_entry_weight_one hmax hp hpm

theorem load_weights_amended_witness :
    F.div (F.val ((((("a", 2) : String × ℕ)).2 : ℕ) : ℚ))
      (F.val ((maxCount [("a", 2)] : ℕ) : ℚ)) = F.val 1 :=
  load_weights_amended.2.2 [("a", 2)] (by decide) ("a", 2)
    (by simp) (by decide)

/-- C2 (counterexample).  An entry that is an array of length three is not
rejected: the loader accepts it and uses only its first two elements. -/
theorem entry_length_three_accepted :
    load_frequency_dict (Json.arr [Json.arr [Json.str "a", Json.num (JNum.uint 1),
      Json.num (JNum.uint 7)]]) none = .ok [("a", F.val 1)] := by
  simp [load_frequency_dict, Json.as_array, parseItems, parseEntry, Json.as_str, Json.as_u64,
    truncateItems, buildMap, maxCount, hmInsert, F.div, Except.bind, Except.map]

/-- C2 (amended).  `load_frequency_dict` fails with a distinct reported
error in exactly these cases: the content is not a sequence at the top
level; an entry is not an array; an entry is an array of length strictly
less than two; the first element is not a string; the second element is not
a non-negative (`u64`) integer.  Arrays of length two or more are accepted,
so an entry is rejected for its length only when that length is below two. -/
theorem parse_failure_modes :
    (∀ (json : Json) (tk : Option ℕ), json.as_array = none →
      load_frequency_dict json tk = .error "Ожидался JSON-массив верхнего уровня") ∧
    (∀ l : List Json, (∃ items, parseItems l = .ok items) ↔ l.all entryShapeOk = true) ∧
    parseEntry (Json.num (JNum.uint 0)) =
      .error "Элемент словаря не является массивом из двух значений" ∧
    parseEntry (Json.arr [Json.str "a"]) =
      .error "Элемент массива словаря имеет длину < 2" ∧
    parseEntry (Json.arr [Json.num (JNum.uint 1), Json.num (JNum.uint 2)]) =
      .error "Первый элемент не строка" ∧
    parseEntry (Json.arr [Json.str "a", Json.str "b"]) =
      .error "Второй элемент не число" := by
  refine ⟨?_, parseItems_ok_iff, rfl, rfl, rfl, rfl⟩
  intro json tk h
  rw [load_frequency_dict, h]

theorem parse_failure_modes_witness :
    load_frequency_dict (Json.str "x") none =
      .error "Ожидался JSON-массив верхнего уровня" :=
  parse_failure_modes.1 (Json.str "x") none rfl

/-- C3.  `compute_readability` scores exactly the first `min(N, length)`
tokens when N is given (all tokens otherwise), adds each considered token's
table weight (0.0 when absent, still counted in the denominator), and
returns `sum / count`; in particular `{the: 1.0}` on `["the", "zzz"]` scores
`0.5`, and `{the: 1.0, cat: 0.5}` on `["the", "cat", "the"]` with N = 1
scores `1.0`. -/
theorem compute_readability_spec :
    (∀ (toks : List String) (dict : List (String × F)) (n : ℕ),
      compute_readability toks dict (some n) =
        (if (toks.take (min n toks.length)).length = 0 then none
         else some (F.div (sumWeights dict (toks.take (min n toks.length)))
           (F.val ((toks.take (min n toks.length)).length : ℚ))))) ∧
    (∀ (toks : List String) (dict : List (String × F)),
      compute_readability toks dict none =
        (if toks.length = 0 then none
         else some (F.div (sumWeights dict toks) (F.val (toks.length : ℚ))))) ∧
    compute_readability ["the", "zzz"] [("the", F.val 1)] none = some (F.val (1/2)) ∧
    compute_readability ["the", "cat", "the"]
      [("the", F.val 1), ("cat", F.val (1/2))] (some 1) = some (F.val 1) := by
  refine ⟨?_, ?_, ?_, ?_⟩
  · intro toks dict n
    rw [compute_readability]
    dsimp only [consideredTokens]
    rw [take_eq_take_min]
  · intro toks dict
    rw [compute_readability]
    dsimp only [consideredTokens]
  · simp [compute_readability, consideredTokens, sumWeights, lookupWeight, hmGet?,
      F.add, F.div]
  · simp [compute_readability, consideredTokens, sumWeights, lookupWeight, hmGet?,
      List.find?, F.add, F.div]

/-- C4.  `tokenize_english_words` returns, in left-to-right order, exactly
the maximal runs of ASCII letters each optionally extended by one apostrophe
and a further letter run, with every other character a discarded separator,
all ASCII-lowercased; in particular on
`"Hello, World! Isn't it nice?"` it yields
`["hello", "world", "isn't", "it", "nice"]`. -/
theorem tokenize_spec :
    (∀ s : String, tokenize_english_words s =
      (specTokens s.data).map (fun t => String.mk (t.map asciiToLower))) ∧
    tokenize_english_words "Hello, World! Isn't it nice?" =
      ["hello", "world", "isn't", "it", "nice"] := by
  constructor
  · intro s
    rw [tokenize_english_words, scan_out_eq_specTokens]
  · decide

/-- C5.  With a provided limit K the loader keeps exactly the first
`min(K, length)` parsed entries in order before weighting, and the resulting
table binds exactly the words of those entries: a word occurring only beyond
position K is absent. -/
theorem truncation_spec :
    ∀ (json : Json) (k : ℕ) (m : List (String × F)) (w : String),
      load_frequency_dict json (some k) = .ok m →
      ∃ arr items, json.as_array = some arr ∧ parseItems arr = .ok items ∧
        m = buildMap (items.take (min k items.length)) ∧
        ((hmGet? m w).isSome = true ↔
          w ∈ (items.take (min k items.length)).map Prod.fst) := by
  intro json k m w hm
  obtain ⟨arr, items, ha, hit, hne, hbm⟩ := (load_ok_iff json (some k) m).mp hm
  refine ⟨arr, items, ha, hit, hbm, ?_⟩
  rw [hbm]
  exact hmGet?_buildMap_isSome (truncateItems items (some k)) w

theorem truncation_spec_witness :
    ∃ arr items,
      (Json.arr [Json.arr [Json.str "a", Json.num (JNum.uint 1)],
        Json.arr [Json.str "b", Json.num (JNum.uint 2)]]).as_array = some arr ∧
      parseItems arr = .ok items ∧
      buildMap [("a", 1)] = buildMap (items.take (min 1 items.length)) ∧
      ((hmGet? (buildMap [("a", 1)]) "b").isSome = true ↔
        "b" ∈ (items.take (min 1 items.length)).map Prod.fst) :=
  truncation_spec (Json.arr [Json.arr [Json.str "a", Json.num (JNum.uint 1)],
    Json.arr [Json.str "b", Json.num (JNum.uint 2)]]) 1 (buildMap [("a", 1)]) "b" rfl

/-- C6.  Looking a word up in the built table yields the weight of its last
occurrence among the kept entries (last-write-wins): duplicates silently
overwrite, are never summed, and never raise an error (the builder is a
total function). -/
theorem last_write_wins :
    ∀ (items : List (String × ℕ)) (w : String),
      hmGet? (buildMap items) w =
        ((items.filter (fun p => p.1 = w)).getLast?).map
          (fun p => F.div (F.val (p.2 : ℚ)) (F.val (maxCount items : ℚ))) :=
  fun items w => hmGet?_buildMap items w

/-- C7.  The loader fails with the "empty dictionary" error exactly when the
kept entry list after truncation is empty; `compute_readability` returns no
score exactly when the considered token list is empty; and the driver turns
that into the fatal "no words" error exactly when the dictionary loaded and
no token was considered. -/
theorem semantic_failures :
    (∀ (json : Json) (tk : Option ℕ),
      load_frequency_dict json tk = .error "Словарь пуст" ↔
        ∃ arr items, json.as_array = some arr ∧ parseItems arr = .ok items ∧
          truncateItems items tk = []) ∧
    (∀ (toks : List String) (dict : List (String × F)) (tn : Option ℕ),
      compute_readability toks dict tn = none ↔ consideredTokens toks tn = []) ∧
    (∀ (json : Json) (tk : Option ℕ) (text : String) (tn : Option ℕ),
      pipeline json tk text tn = .error "Не найдено ни одного слова для оценки" ↔
        ∃ m, load_frequency_dict json tk = .ok m ∧
          consideredTokens (tokenize_english_words text) tn = []) :=
  ⟨load_empty_iff, compute_readability_none_iff, pipeline_noscore_iff⟩

theorem semantic_failures_witness :
    compute_readability [] [] none = none :=
  (semantic_failures.2.1 [] [] none).mpr rfl

/-- C8 (counterexample).  The pipeline can produce a score that is not a
finite value in `[0,1]`: with the all-zero dictionary `[["a",0]]` and the
text `"a"` it outputs the NaN weight `0.0 / 0.0` as the score. -/
theorem nan_score_counterexample :
    pipeline (Json.arr [Json.arr [Json.str "a", Json.num (JNum.uint 0)]]) none "a" none =
      .ok F.nan ∧ ¬ F.finiteInUnit F.nan := by
  constructor
  · have ht : tokenize_english_words "a" = ["a"] := by decide
    simp [pipeline, load_frequency_dict, Json.as_array, parseItems, parseEntry, Json.as_str,
      Json.as_u64, truncateItems, buildMap, maxCount, hmInsert, Except.bind, Except.map,
      ht, compute_readability, consideredTokens, sumWeights, lookupWeight, hmGet?,
      List.find?, F.add, F.div]
  · rintro ⟨q, hq, _⟩
    cases hq

/-- C8 (amended).  Every score the pipeline produces is the
`compute_readability` result over the built weight table, and whenever the
kept entries' maximum raw count is nonzero (true for every dictionary with
at least one positive count) that score is a finite value in `[0,1]`. -/
theorem score_unit_amended :
    (∀ (json : Json) (tk : Option ℕ) (text : String) (tn : Option ℕ) (f : F),
      pipeline json tk text tn = .ok f →
      ∃ arr items, json.as_array = some arr ∧ parseItems arr = .ok items ∧
        compute_readability (tokenize_english_words text)
          (buildMap (truncateItems items tk)) tn = some f) ∧
    (∀ (items : List (String × ℕ)) (toks : List String) (tn : Option ℕ) (f : F),
      maxCount items ≠ 0 →
      compute_readability toks (buildMap items) tn = some f →
      F.finiteInUnit f) := by
  constructor
  · intro json tk text tn f hp
    rw [pipeline] at hp
    cases hl : load_frequency_dict json tk with
    | error e =>
      rw [hl] at hp
      dsimp only [Except.bind] at hp
      cases hp
    | ok m =>
      rw [hl] at hp
      dsimp only [Except.bind] at hp
      obtain ⟨arr, items, ha, hit, hne, hbm⟩ := (load_ok_iff json tk m).mp hl
      cases hc : compute_readability (tokenize_english_words text) m tn with
      | none =>
        rw [hc] at hp
        cases hp
      | some s =>
        rw [hc] at hp
        dsimp only [] at hp
        injection hp with hp
        subst hp
        rw [hbm] at hc
        exact ⟨arr, items, ha, hit, hc⟩
  · intro items toks tn f hmax hcomp
    refine compute_readability_unit ?_ hcomp
    intro w g hg
    obtain ⟨p, _, _, hfq, h0, h1⟩ := buildMap_weight_unit hmax hg
    exact ⟨_, hfq, h0, h1⟩

theorem score_unit_amended_witness : F.finiteInUnit (F.val 1) :=
  score_unit_amended.2 [("a", 2)] ["a"] none (F.val 1) (by decide)
    (by simp [compute_readability, consideredTokens, sumWeights, lookupWeight, hmGet?,
      buildMap, maxCount, hmInsert, List.find?, F.add, F.div])

/-- C9.  An entry that is an array of length greater than two is accepted,
its first two elements used as (word, count) and the rest silently ignored;
only arrays of length strictly below two are rejected for their length. -/
theorem extra_elements_ignored :
    (∀ (v₀ v₁ : Json) (extra : List Json),
      parseEntry (.arr (v₀ :: v₁ :: extra)) = parseEntry (.arr [v₀, v₁])) ∧
    (∀ a : List Json, a.length < 2 →
      parseEntry (.arr a) = .error "Элемент массива словаря имеет длину < 2") := by
  constructor
  · intro v₀ v₁ extra
    rfl
  · intro a h
    rcases a with _ | ⟨v, _ | ⟨w, rest⟩⟩
    · rfl
    · rfl
    · exfalso
      simp [List.length_cons] at h
      omega

theorem extra_elements_ignored_witness :
    parseEntry (Json.arr (Json.str "a" :: Json.num (JNum.uint 1) :: [Json.bool true])) =
      parseEntry (Json.arr [Json.str "a", Json.num (JNum.uint 1)]) ∧
    parseEntry (Json.arr []) = .error "Элемент массива словаря имеет длину < 2" :=
  ⟨extra_elements_ignored.1 (Json.str "a") (Json.num (JNum.uint 1)) [Json.bool true],
   extra_elements_ignored.2 [] (by decide)⟩

/-- C10.  Every produced token is non-empty, consists of lowercase ASCII
letters and at most one apostrophe, and never begins or ends with an
apostrophe; a trailing possessive apostrophe is dropped and an isolated
apostrophe yields no token. -/
theorem tokens_wellformed :
    (∀ (s : String), ∀ t ∈ tokenize_english_words s,
      t.data ≠ [] ∧
      (∀ c ∈ t.data, (97 ≤ c.toNat ∧ c.toNat ≤ 122) ∨ c = apos) ∧
      t.data.count apos ≤ 1 ∧
      t.data.head? ≠ some apos ∧
      t.data.getLast? ≠ some apos) ∧
    tokenize_english_words "dogs'" = ["dogs"] ∧
    tokenize_english_words "'" = [] :=
  ⟨tokenize_token_shape, by decide, by decide⟩

theorem tokens_wellformed_witness : ("can't" : String).data ≠ [] :=
  (tokens_wellformed.1 "Can't stop" "can't" (by decide)).1

end Readability
